import Mathlib

/-!
# Verification of `scripts/audio_rename_and_assign.py`

A shallow embedding of the audio rename-and-assign tool.  Strings are
modelled as `List Char`.  Two modelling conventions, noted where used:

* `unicodedata.normalize("NFC", ·)` is modelled as the identity
  (`pyNFC`): every string this program manipulates (ASCII, CJK
  ideographs, kana without combining marks) is already NFC-normalized,
  and NFC is the identity on such strings.
* `str.lower()` is modelled as character-wise `Char.toLower`
  (`pyLower`); the two agree on the ASCII and CJK characters the
  program's data uses.  Likewise `\d` in the source's regexes is
  modelled as the ASCII digits `Char.isDigit`, the only digits the
  repository's filename conventions use.
-/

namespace AudioTool

/-- `unicodedata.normalize("NFC", text)`, modelled as the identity (see header). -/
def pyNFC (s : List Char) : List Char := s

/-- `str.lower()`, modelled character-wise (see header). -/
def pyLower (s : List Char) : List Char := s.map Char.toLower

/-- `leadMatch needle hay`: `hay` starts with `needle`. -/
def leadMatch : List Char → List Char → Bool
  | [], _ => true
  | _ :: _, [] => false
  | a :: as, b :: bs => a == b && leadMatch as bs

/-- Python's substring test `needle in hay` (contiguous occurrence). -/
def occursIn (needle : List Char) : List Char → Bool
  | [] => needle.isEmpty
  | c :: rest => leadMatch needle (c :: rest) || occursIn needle rest

/-- `re.sub(r"c+", "c", t)` for a single character `c`: collapse runs of `c`. -/
def collapseRuns (c : Char) : List Char → List Char
  | [] => []
  | [a] => [a]
  | a :: b :: rest =>
    if a == c && b == c then collapseRuns c (b :: rest)
    else a :: collapseRuns c (b :: rest)

/-- Python's `t.replace("..", ".")`: left-to-right non-overlapping replacement. -/
def replaceDoubleDot : List Char → List Char
  | '.' :: '.' :: rest => '.' :: replaceDoubleDot rest
  | a :: rest => a :: replaceDoubleDot rest
  | [] => []

/-- Python's `t.strip("_")`: drop all leading and trailing underscores. -/
def stripUnderscores (l : List Char) : List Char :=
  ((l.dropWhile (· == '_')).reverse.dropWhile (· == '_')).reverse

/-- `_clean_separators` from the source: NFC, full-width underscore to
underscore, remove spaces, collapse and then remove dots, collapse
underscore runs, strip outer underscores. -/
def clean_separators (t0 : List Char) : List Char :=
  let t := pyNFC t0
  let t := t.map fun c => if c == '＿' then '_' else c
  let t := t.filter fun c => c != ' '
  let t := collapseRuns '.' t
  let t := replaceDoubleDot t
  let t := t.filter fun c => c != '.'
  let t := collapseRuns '_' t
  stripUnderscores t

/-- `_strip_mp3_token`: `re.sub(r"(?i)mp3", "", text)`, removing
case-insensitive occurrences of `mp3` left to right, non-overlapping. -/
def strip_mp3_token : List Char → List Char
  | a :: b :: c :: rest =>
    if a.toLower == 'm' && b.toLower == 'p' && c == '3' then strip_mp3_token rest
    else a :: strip_mp3_token (b :: c :: rest)
  | l => l

/-- Python's `rest.replace("(d)", "takeD_")` for a digit character `d`. -/
def replaceTake (d : Char) : List Char → List Char
  | '(' :: x :: ')' :: rest =>
    if x == d then 't' :: 'a' :: 'k' :: 'e' :: d :: '_' :: replaceTake d rest
    else '(' :: replaceTake d (x :: ')' :: rest)
  | a :: rest => a :: replaceTake d rest
  | [] => []

/-- Python's `str.zfill w` on the digit strings this program passes
(the sign-character special case of `zfill` cannot arise here). -/
def zfill (w : Nat) (s : List Char) : List Char :=
  List.replicate (w - s.length) '0' ++ s

/-- `pathlib.Path(name)`'s `(stem, suffix)` split: the suffix starts at the
last dot, provided that dot is neither the first nor the last character. -/
def splitExt (name : List Char) : List Char × List Char :=
  let r := name.reverse
  let pre := r.takeWhile (· != '.')
  if pre.length == 0 || name.length ≤ pre.length + 1 then (name, [])
  else ((r.drop (pre.length + 1)).reverse, '.' :: pre.reverse)

/-- The parsed-filename record (`ParsedAudioName` dataclass). -/
structure ParsedAudioName where
  speaker : List Char
  date_yyyymmdd : List Char
  time_hhmmss : Option (List Char)
  descriptor : List Char
  source_kind : List Char
  keep_id : Option (List Char)
deriving DecidableEq, Repr

/-- The descriptor cleanup of `_parse_tsukamoto_style`: strip `mp3`
tokens, clean, rewrite the three take markers, clean again, sentinel. -/
def mkDescB (rest0 : List Char) : List Char :=
  let r := clean_separators (strip_mp3_token rest0)
  let r := replaceTake '1' r
  let r := replaceTake '2' r
  let r := replaceTake '3' r
  let r := clean_separators r
  if r.isEmpty then "UnknownContent".data else r

/-- The descriptor cleanup of `_parse_suzuki_style`: strip `mp3` tokens,
clean, drop one leading underscore, sentinel. -/
def mkDescA (rest0 : List Char) : List Char :=
  let r := clean_separators (strip_mp3_token rest0)
  let r := match r with
    | '_' :: tail => tail
    | other => other
  if r.isEmpty then "UnknownContent".data else r

/-- The character class `[^0-9_]` used for Grammar B's speaker run and the
planners' speaker-prefix pre-filter. -/
def classB (c : Char) : Bool := !c.isDigit && c != '_'

/-- `_parse_tsukamoto_style`: Grammar B,
`^(?P<speaker>[^0-9_]+)(?P<date>\d{8})_(?P<time>\d{6})(?P<rest>.*)$`.
Because the speaker class excludes digits and the date group starts with a
digit, the regex match succeeds exactly on this greedy decomposition. -/
def parseTsukamoto (stem : List Char) : Option ParsedAudioName :=
  let sp := stem.takeWhile classB
  let r0 := stem.dropWhile classB
  if sp.isEmpty then none
  else
    let date := r0.take 8
    let r1 := r0.drop 8
    if date.length == 8 && date.all Char.isDigit then
      match r1 with
      | '_' :: r2 =>
        let time := r2.take 6
        let rest := r2.drop 6
        if time.length == 6 && time.all Char.isDigit then
          some ⟨sp, date, some time, mkDescB rest, "B".data, none⟩
        else none
      | _ => none
    else none

/-- `_parse_suzuki_style`: Grammar A,
`^(?P<speaker>[^_]+)_WAV_(?P<id1>\d{4})_(?P<id2>\d{3})(?P<rest>.*)$`.
The speaker run stops at the first underscore, where the literal `_WAV_`
must start; no other decomposition can match. -/
def parseSuzuki (stem : List Char) (unknown_date : List Char) (keep_id : Bool) :
    Option ParsedAudioName :=
  let sp := stem.takeWhile (· != '_')
  let r0 := stem.dropWhile (· != '_')
  if sp.isEmpty then none
  else
    match r0 with
    | '_' :: 'W' :: 'A' :: 'V' :: '_' :: r1 =>
      let id1 := r1.take 4
      let r2 := r1.drop 4
      if id1.length == 4 && id1.all Char.isDigit then
        match r2 with
        | '_' :: r3 =>
          let id2 := r3.take 3
          let rest := r3.drop 3
          if id2.length == 3 && id2.all Char.isDigit then
            some ⟨sp, unknown_date, none, mkDescA rest, "A".data,
              if keep_id then some ("WAV".data ++ zfill 4 id1 ++ '_' :: zfill 3 id2)
              else none⟩
          else none
        | _ => none
      else none
    | _ => none

/-- `parse_audio_name`: require a case-insensitive `.mp3` suffix, NFC the
stem, try Grammar B first and then Grammar A. -/
def parse_audio_name (filename : List Char) (unknown_date : List Char)
    (keep_suzuki_id : Bool) : Option ParsedAudioName :=
  let se := splitExt filename
  if pyLower se.2 != ".mp3".data then none
  else
    let stem := pyNFC se.1
    match parseTsukamoto stem with
    | some r => some r
    | none => parseSuzuki stem unknown_date keep_suzuki_id

/-- `NAME_ROMAJI`. -/
def NAME_ROMAJI : List (List Char × List Char) :=
  [("鈴木".data, "Suzuki".data),
   ("塚本".data, "Tsukamoto".data),
   ("高野".data, "Takano".data)]

/-- `NAME_ROMAJI.get(speaker, speaker)`. -/
def romajiGet (s : List Char) : List Char :=
  match NAME_ROMAJI.find? (fun p => p.1 == s) with
  | some p => p.2
  | none => s

/-- Python truthiness of an optional string used by
`if parsed.time_hhmmss:` / `if parsed.keep_id:`: both `None` and the
empty string are falsy. -/
def optTruthy : Option (List Char) → List (List Char)
  | some t => if t.isEmpty then [] else [t]
  | none => []

/-- `build_new_filename`: romanize the speaker if asked, join
speaker/date/time/keep_id/descriptor with underscores, clean, fall back
to `<speaker>_<date>_UnknownContent` when empty, append `.mp3`. -/
def build_new_filename (p : ParsedAudioName) (romanize_names : Bool) : List Char :=
  let sp := if romanize_names then romajiGet p.speaker else p.speaker
  let parts := [sp, p.date_yyyymmdd] ++ optTruthy p.time_hhmmss
    ++ optTruthy p.keep_id ++ [p.descriptor]
  let joined := clean_separators (List.intercalate ['_'] parts)
  let joined :=
    if joined.isEmpty then sp ++ '_' :: (p.date_yyyymmdd ++ "_UnknownContent".data)
    else joined
  joined ++ ".mp3".data

/-- `KEYWORD_TO_SPOT_TITLE`: the ordered keyword table. -/
def KEYWORD_TO_SPOT_TITLE : List (List Char × List Char) :=
  [("帆曳船".data, "りんりんポート土浦".data),
   ("white iris".data, "りんりんポート土浦".data),
   ("ホワイトアイリス".data, "りんりんポート土浦".data),
   ("帰港".data, "りんりんポート土浦".data),
   ("鐘".data, "幸せの鐘".data),
   ("水車".data, "水車".data),
   ("風車".data, "風車".data),
   ("野球".data, "多目的広場".data),
   ("サッカー".data, "多目的広場".data),
   ("ソフトボール".data, "多目的広場".data),
   ("滝".data, "水郷の滝".data),
   ("ひこうき".data, "ツェッペリン号".data),
   ("飛行機".data, "ツェッペリン号".data),
   ("水路".data, "風車".data),
   ("板".data, "風車".data),
   ("デッキ".data, "レストハウス".data),
   ("じゃり".data, "レストハウス".data),
   ("自販機".data, "レストハウス".data),
   ("扉".data, "レストハウス".data),
   ("箱".data, "レストハウス".data),
   ("鉄琴".data, "レストハウス".data),
   ("鎖".data, "レストハウス".data),
   ("水槽".data, "レストハウス".data),
   ("階段".data, "風車".data),
   ("砂".data, "散歩道".data),
   ("足音".data, "ジョギングコース".data),
   ("枯葉".data, "ジョギングコース".data),
   ("ドングリ".data, "ジョギングコース".data),
   ("どんぐり".data, "ジョギングコース".data),
   ("鳥".data, "森1".data),
   ("さえずり".data, "森1".data),
   ("薮".data, "森1".data),
   ("虫".data, "森1".data),
   ("木".data, "森1".data),
   ("水".data, "水郷の滝".data),
   ("池".data, "水郷の滝".data),
   ("川".data, "水郷の滝".data)]

/-- A filesystem path, modelled as a parent-directory string plus a final
name component; `Path.with_name` replaces the name and keeps the parent. -/
structure Pth where
  dir : List Char
  name : List Char
deriving DecidableEq, Repr

/-- The `RenamePlanItem` dataclass. -/
structure RenamePlanItem where
  src : Pth
  dst : Pth
deriving DecidableEq, Repr

/-- The collision-loop candidate `f"{base}_dup{i}{suffix}"`; the decimal
rendering of `i` is core's `Nat.toDigits 10 i`, which agrees with
Python's `str(i)` for naturals. -/
def dupName (base suffix : List Char) (i : Nat) : List Char :=
  base ++ "_dup".data ++ Nat.toDigits 10 i ++ suffix

/-- The `while dst.exists() or dst in used` loop of `plan_renames`.
`blocked` is the list of names that fail the loop condition (the
directory listing plus the names already claimed in this pass).  The
source's loop is unbounded; here it carries fuel, and
`resolveLoop_not_blocked` below proves that `blocked.length + 1` fuel
always suffices to reach a free name, so the fuelled loop computes the
same name as the source's unbounded loop. -/
def resolveLoop (blocked : List (List Char)) (base suffix : List Char) :
    Nat → Nat → List Char → List Char
  | 0, _, dst => dst
  | fuel + 1, i, dst =>
    if dst ∈ blocked then resolveLoop blocked base suffix fuel (i + 1) (dupName base suffix i)
    else dst

/-- Collision resolution for one candidate destination name. -/
def resolveDst (blocked : List (List Char)) (cand : List Char) : List Char :=
  let bs := splitExt cand
  resolveLoop blocked bs.1 bs.2 (blocked.length + 1) 1 cand

/-- The collision-resolution pass of `plan_renames`: `listing` models the
set of names existing in the audio directory (`dst.exists()`), `used`
the destinations already claimed in this pass. -/
def resolveAllAux (listing : List (List Char)) :
    List RenamePlanItem → List (List Char) → List RenamePlanItem
  | [], _ => []
  | it :: rest, used =>
    let nm := resolveDst (listing ++ used) it.dst.name
    ⟨it.src, ⟨it.dst.dir, nm⟩⟩ :: resolveAllAux listing rest (nm :: used)

/-- The candidate-collection loop of `plan_renames`: keep `.mp3` files
whose NFC stem has a nonempty `[^0-9_]` prefix in `targets` and which
parse under one of the two grammars; pair each with its rebuilt name.
`listing` is the sorted directory listing (regular files; `sorted`
order is the caller's responsibility and nothing below depends on it). -/
def candidateItems (audio_dir : List Char) (listing : List (List Char))
    (targets : List (List Char)) (romanize_names : Bool) (unknown_date : List Char)
    (keep_suzuki_id : Bool) : List RenamePlanItem :=
  listing.filterMap fun nm =>
    let se := splitExt nm
    if pyLower se.2 != ".mp3".data then none
    else
      let stem := pyNFC se.1
      let pre := stem.takeWhile classB
      if pre.isEmpty then none
      else if pre ∈ targets then
        match parse_audio_name nm unknown_date keep_suzuki_id with
        | none => none
        | some parsed =>
          some ⟨⟨audio_dir, nm⟩, ⟨audio_dir, build_new_filename parsed romanize_names⟩⟩
      else none

/-- `plan_renames`: collect candidates, resolve collisions against the
existing directory contents and the plan itself, drop no-op entries. -/
def plan_renames (audio_dir : List Char) (listing : List (List Char))
    (targets : List (List Char)) (romanize_names : Bool) (unknown_date : List Char)
    (keep_suzuki_id : Bool) : List RenamePlanItem :=
  let items := candidateItems audio_dir listing targets romanize_names
    unknown_date keep_suzuki_id
  let resolved := resolveAllAux listing items []
  resolved.filter fun it => it.src.name != it.dst.name

/-- The classifier's per-keyword test: `keyword.lower() in d.lower()`
with `d = _nfc(descriptor)`. -/
def kwMatches (kw d : List Char) : Bool :=
  occursIn (pyLower kw) (pyLower (pyNFC d))

/-- The classifier's first-match scan over a keyword table. -/
def guessAux : List (List Char × List Char) → List Char → Option (List Char)
  | [], _ => none
  | p :: rest, d => if kwMatches p.1 d then some p.2 else guessAux rest d

/-- `guess_spot_title`: first keyword (in table order) whose lowercase
form occurs in the lowercase NFC descriptor; `None` when none does. -/
def guess_spot_title (d : List Char) : Option (List Char) :=
  guessAux KEYWORD_TO_SPOT_TITLE d

/-- A playlist track entry `{name, file}`. -/
structure Track where
  name : List Char
  file : List Char
deriving DecidableEq, Repr

/-- A named-location record from `spots.json`: the fields this tool reads
and writes (`title`, `playlist`); other JSON fields are untouched by the
planner and are not modelled.  A missing or `null` playlist and an empty
one are indistinguishable to the source (`spot.get("playlist") or []`),
so `playlist` is a plain list. -/
structure Spot where
  title : List Char
  playlist : List Track
deriving DecidableEq, Repr

/-- The `title_to_spot` dict lookup: `{s.get("title", ""): s for s in
spots}` maps each title to the *last* spot carrying it. -/
def titleToSpot (spots : List Spot) (t : List Char) : Option Spot :=
  spots.reverse.find? (fun s => s.title == t)

/-- The insertion-ordered keys of `title_to_spot`: first occurrence of
each title, in order. -/
def firstKeys : List (List Char) → List (List Char)
  | [] => []
  | t :: ts => t :: (firstKeys ts).filter (· != t)

/-- `additions = {t: [] for t in title_to_spot.keys()}`. -/
def emptyAdditions (spots : List Spot) : List (List Char × List Track) :=
  (firstKeys (spots.map Spot.title)).map fun t => (t, [])

/-- `additions[title].append(track)` on the association-list model of the
dict (keys are distinct, so at most one entry changes). -/
def appendAdd (adds : List (List Char × List Track)) (t : List Char) (tr : Track) :
    List (List Char × List Track) :=
  adds.map fun p => if p.1 == t then (p.1, p.2 ++ [tr]) else p

/-- `_build_track_name`: `f"{speaker}:{descriptor}"` after optional
romanization. -/
def build_track_name (speaker descriptor : List Char) (romanize_names : Bool) :
    List Char :=
  (if romanize_names then romajiGet speaker else speaker) ++ ':' :: descriptor

/-- One iteration of the `plan_spots_additions` loop, for file name `f`:
extension and speaker-prefix pre-filters, parse, classify, then append a
track unless the location's current playlist already holds the same
relative path. -/
def assignStep (spots : List Spot) (targets : List (List Char))
    (unknown_date : List Char) (keep_suzuki_id romanize_names : Bool)
    (st : List (List Char × List Track) × List (List Char)) (f : List Char) :
    List (List Char × List Track) × List (List Char) :=
  let se := splitExt f
  if pyLower se.2 != ".mp3".data then st
  else
    let stem := pyNFC se.1
    let pre := stem.takeWhile classB
    if pre.isEmpty then st
    else if pre ∈ targets then
      match parse_audio_name f unknown_date keep_suzuki_id with
      | none => st
      | some parsed =>
        match guess_spot_title parsed.descriptor with
        | none => (st.1, st.2 ++ [f])
        | some title =>
          if title.isEmpty then (st.1, st.2 ++ [f])
          else
            match titleToSpot spots title with
            | none => (st.1, st.2 ++ [f])
            | some spot =>
              let rel := "audio/".data ++ f
              let track : Track :=
                ⟨build_track_name parsed.speaker parsed.descriptor romanize_names, rel⟩
              if spot.playlist.any (fun t => t.file == rel) then st
              else (appendAdd st.1 title track, st.2)
    else st

/-- `plan_spots_additions`: returns (per-title additions with empty
entries pruned, unmapped files).  `audio_files` is the candidate list
(the caller passes it sorted; nothing below depends on the order). -/
def plan_spots_additions (spots : List Spot) (audio_files : List (List Char))
    (unknown_date : List Char) (keep_suzuki_id romanize_names : Bool)
    (targets : List (List Char)) :
    List (List Char × List Track) × List (List Char) :=
  let st := audio_files.foldl
    (assignStep spots targets unknown_date keep_suzuki_id romanize_names)
    (emptyAdditions spots, [])
  (st.1.filter fun p => !p.2.isEmpty, st.2)

/-- One iteration of the `plan_spots_additions_from_rename_plan` loop:
parse the *source* name, filter by the parsed speaker, classify, and
record the *destination* name as the playlist path. -/
def assignStepPlan (spots : List Spot) (targets : List (List Char))
    (unknown_date : List Char) (keep_suzuki_id romanize_names : Bool)
    (st : List (List Char × List Track) × List Pth) (it : RenamePlanItem) :
    List (List Char × List Track) × List Pth :=
  match parse_audio_name it.src.name unknown_date keep_suzuki_id with
  | none => st
  | some parsed =>
    if parsed.speaker ∈ targets then
      match guess_spot_title parsed.descriptor with
      | none => (st.1, st.2 ++ [it.dst])
      | some title =>
        if title.isEmpty then (st.1, st.2 ++ [it.dst])
        else
          match titleToSpot spots title with
          | none => (st.1, st.2 ++ [it.dst])
          | some spot =>
            let rel := "audio/".data ++ it.dst.name
            let track : Track :=
              ⟨build_track_name parsed.speaker parsed.descriptor romanize_names, rel⟩
            if spot.playlist.any (fun t => t.file == rel) then st
            else (appendAdd st.1 title track, st.2)
    else st

/-- `plan_spots_additions_from_rename_plan`. -/
def plan_spots_additions_from_rename_plan (spots : List Spot)
    (rename_plan : List RenamePlanItem) (unknown_date : List Char)
    (keep_suzuki_id romanize_names : Bool) (targets : List (List Char)) :
    List (List Char × List Track) × List Pth :=
  let st := rename_plan.foldl
    (assignStepPlan spots targets unknown_date keep_suzuki_id romanize_names)
    (emptyAdditions spots, [])
  (st.1.filter fun p => !p.2.isEmpty, st.2)

/-- The index of the spot a title refers to: the *last* list position
whose title matches, mirroring dict-value object identity. -/
def lastTitleIdx : List Spot → List Char → Option Nat
  | [], _ => none
  | s :: rest, t =>
    match lastTitleIdx rest t with
    | some j => some (j + 1)
    | none => if s.title == t then some 0 else none

/-- Merge one title's additions into the spot list (`apply_spots_additions`
body for a single dict entry). -/
def applyOne (spots : List Spot) (p : List Char × List Track) : List Spot :=
  match lastTitleIdx spots p.1 with
  | none => spots
  | some j =>
    match spots.get? j with
    | none => spots
    | some s => spots.set j ⟨s.title, s.playlist ++ p.2⟩

/-- `apply_spots_additions`: extend each addressed spot's playlist with
its planned tracks. -/
def apply_spots_additions (spots : List Spot)
    (adds : List (List Char × List Track)) : List Spot :=
  adds.foldl applyOne spots

/-- Modelled from the spec (§4.6): the variant of
`plan_spots_additions_from_rename_plan` in which "classification and
file-path construction use the post-rename destination name" — the
parse feeding the classifier reads `it.dst.name` instead of
`it.src.name`.  Used to compare the source's behaviour against the
spec's words. -/
def assignStepPlanSpecRead (spots : List Spot) (targets : List (List Char))
    (unknown_date : List Char) (keep_suzuki_id romanize_names : Bool)
    (st : List (List Char × List Track) × List Pth) (it : RenamePlanItem) :
    List (List Char × List Track) × List Pth :=
  match parse_audio_name it.dst.name unknown_date keep_suzuki_id with
  | none => st
  | some parsed =>
    if parsed.speaker ∈ targets then
      match guess_spot_title parsed.descriptor with
      | none => (st.1, st.2 ++ [it.dst])
      | some title =>
        if title.isEmpty then (st.1, st.2 ++ [it.dst])
        else
          match titleToSpot spots title with
          | none => (st.1, st.2 ++ [it.dst])
          | some spot =>
            let rel := "audio/".data ++ it.dst.name
            let track : Track :=
              ⟨build_track_name parsed.speaker parsed.descriptor romanize_names, rel⟩
            if spot.playlist.any (fun t => t.file == rel) then st
            else (appendAdd st.1 title track, st.2)
    else st

/-- Modelled from the spec (§4.6): the whole-plan variant built on
`assignStepPlanSpecRead`. -/
def plan_from_rename_plan_specRead (spots : List Spot)
    (rename_plan : List RenamePlanItem) (unknown_date : List Char)
    (keep_suzuki_id romanize_names : Bool) (targets : List (List Char)) :
    List (List Char × List Track) × List Pth :=
  let st := rename_plan.foldl
    (assignStepPlanSpecRead spots targets unknown_date keep_suzuki_id romanize_names)
    (emptyAdditions spots, [])
  (st.1.filter fun p => !p.2.isEmpty, st.2)

/-! ## Classifier lemmas -/

theorem guessAux_eq_none_iff (tbl : List (List Char × List Char)) (d : List Char) :
    guessAux tbl d = none ↔ ∀ p ∈ tbl, kwMatches p.1 d = false := by
  induction tbl with
  | nil => simp [guessAux]
  | cons hd tl ih =>
    by_cases hm : kwMatches hd.1 d = true
    · simp [guessAux, hm]
    · simp only [Bool.not_eq_true] at hm
      simp [guessAux, hm, ih]

theorem guessAux_eq_some_iff (tbl : List (List Char × List Char)) (d sp : List Char) :
    guessAux tbl d = some sp ↔
      ∃ l1 kw l2, tbl = l1 ++ (kw, sp) :: l2 ∧ kwMatches kw d = true ∧
        ∀ p ∈ l1, kwMatches p.1 d = false := by
  induction tbl with
  | nil =>
    constructor
    · intro h
      exact absurd h (by simp [guessAux])
    · rintro ⟨l1, kw, l2, heq, -, -⟩
      exact absurd (List.append_eq_nil.mp heq.symm).2 (List.cons_ne_nil _ _)
  | cons hd tl ih =>
    by_cases hm : kwMatches hd.1 d = true
    · simp only [guessAux, hm, if_pos]
      constructor
      · intro h
        injection h with h
        exact ⟨[], hd.1, tl, by simp [← h], hm, by simp⟩
      · rintro ⟨l1, kw, l2, heq, hkw, hfail⟩
        cases l1 with
        | nil =>
          simp only [List.nil_append, List.cons.injEq] at heq
          rw [heq.1]
        | cons a l1' =>
          simp only [List.cons_append, List.cons.injEq] at heq
          have : kwMatches a.1 d = false := hfail a (List.mem_cons_self a l1')
          rw [heq.1] at hm
          simp [hm] at this
    · simp only [Bool.not_eq_true] at hm
      simp only [guessAux, hm, Bool.false_eq_true, if_false]
      rw [ih]
      constructor
      · rintro ⟨l1, kw, l2, heq, hkw, hfail⟩
        refine ⟨hd :: l1, kw, l2, by simp [heq], hkw, ?_⟩
        intro p hp
        rcases List.mem_cons.mp hp with h | h
        · rw [h]; exact hm
        · exact hfail p h
      · rintro ⟨l1, kw, l2, heq, hkw, hfail⟩
        cases l1 with
        | nil =>
          simp only [List.nil_append, List.cons.injEq] at heq
          rw [heq.1] at hm
          simp at hm
          rw [hm] at hkw
          simp at hkw
        | cons a l1' =>
          simp only [List.cons_append, List.cons.injEq] at heq
          exact ⟨l1', kw, l2, heq.2, hkw, fun p hp => hfail p (List.mem_cons_of_mem a hp)⟩

theorem leadMatch_map (f : Char → Char) :
    ∀ n h : List Char, leadMatch n h = true → leadMatch (n.map f) (h.map f) = true := by
  intro n
  induction n with
  | nil => intro h _; rfl
  | cons a as ih =>
    intro h hm
    cases h with
    | nil => exact absurd hm (by simp [leadMatch])
    | cons b bs =>
      simp only [leadMatch, Bool.and_eq_true, beq_iff_eq] at hm
      simp only [List.map_cons, leadMatch, Bool.and_eq_true, beq_iff_eq]
      exact ⟨congrArg f hm.1, ih bs hm.2⟩

theorem occursIn_map (f : Char → Char) (n : List Char) :
    ∀ h : List Char, occursIn n h = true → occursIn (n.map f) (h.map f) = true := by
  intro h
  induction h with
  | nil =>
    intro ho
    simp only [occursIn, List.isEmpty_iff] at ho
    simp [ho, occursIn]
  | cons c rest ih =>
    intro ho
    simp only [occursIn, Bool.or_eq_true] at ho
    rcases ho with ho | ho
    · have := leadMatch_map f n (c :: rest) ho
      simp only [List.map_cons] at this ⊢
      simp [occursIn, this]
    · simp only [List.map_cons, occursIn, Bool.or_eq_true]
      exact Or.inr (ih ho)

/-- C5: the Spot Classifier returns the title paired with the first
keyword (in `KEYWORD_TO_SPOT_TITLE` order) whose lowercase form occurs
in the lowercase descriptor, and returns `none` exactly when no keyword
in the table matches. -/
theorem c5_spot_classifier_first_match (d : List Char) :
    (guess_spot_title d = none ↔ ∀ p ∈ KEYWORD_TO_SPOT_TITLE, kwMatches p.1 d = false) ∧
    (∀ sp, guess_spot_title d = some sp ↔
      ∃ l1 kw l2, KEYWORD_TO_SPOT_TITLE = l1 ++ (kw, sp) :: l2 ∧
        kwMatches kw d = true ∧ ∀ p ∈ l1, kwMatches p.1 d = false) :=
  ⟨guessAux_eq_none_iff _ d, fun sp => guessAux_eq_some_iff _ d sp⟩

/-- Witness for C5 at the concrete descriptor `滝_1`. -/
theorem c5_spot_classifier_first_match_witness :
    ∃ l1 kw l2, KEYWORD_TO_SPOT_TITLE = l1 ++ (kw, "水郷の滝".data) :: l2 ∧
      kwMatches kw "滝_1".data = true ∧ ∀ p ∈ l1, kwMatches p.1 "滝_1".data = false :=
  ((c5_spot_classifier_first_match "滝_1".data).2 "水郷の滝".data).mp (by decide)

/-- C6 counterexample: the descriptor `滝鳥水` contains both keywords
`鳥` and `水`, yet the classifier resolves it to `水郷の滝` (via the
earlier keyword `滝`), not to `森1`, the location for `鳥`. -/
theorem c6_counterexample :
    occursIn "鳥".data "滝鳥水".data = true ∧
    occursIn "水".data "滝鳥水".data = true ∧
    guess_spot_title "滝鳥水".data = some "水郷の滝".data ∧
    "水郷の滝".data ≠ "森1".data := by decide

/-- C6 (amended): for every descriptor that contains both `鳥` and `水`
and matches no keyword placed before `鳥` in the table, the classifier
returns the location for `鳥` — `森1`, the earlier of the two keywords —
regardless of where the keywords occur in the descriptor. -/
theorem c6_tori_mizu_resolution (d : List Char)
    (h1 : occursIn "鳥".data d = true)
    (_h2 : occursIn "水".data d = true)
    (h3 : ∀ p ∈ KEYWORD_TO_SPOT_TITLE.take 29, kwMatches p.1 d = false) :
    guess_spot_title d = some "森1".data := by
  apply (guessAux_eq_some_iff KEYWORD_TO_SPOT_TITLE d "森1".data).mpr
  refine ⟨KEYWORD_TO_SPOT_TITLE.take 29, "鳥".data, KEYWORD_TO_SPOT_TITLE.drop 30,
    by decide, ?_, h3⟩
  have : pyLower (pyNFC d) = d.map Char.toLower := rfl
  unfold kwMatches
  rw [this]
  have h4 := occursIn_map Char.toLower "鳥".data d h1
  have h5 : ("鳥".data).map Char.toLower = pyLower "鳥".data := rfl
  rw [← h5]
  exact h4

/-- Witness for C6's amended theorem at the concrete descriptor `鳥水`. -/
theorem c6_tori_mizu_resolution_witness :
    guess_spot_title "鳥水".data = some "森1".data :=
  c6_tori_mizu_resolution "鳥水".data (by decide) (by decide) (by decide)

/-- C9: the scenario input `鈴木_WAV_0018_001._滝_1.mp3` with identifier
retention on and placeholder date `UnknownDate` parses to speaker
`鈴木`, date `UnknownDate`, `keep_id` `WAV0018_001`, and a descriptor
containing `滝`, which the classifier maps to `水郷の滝`. -/
theorem c9_suzuki_taki_scenario :
    parse_audio_name "鈴木_WAV_0018_001._滝_1.mp3".data "UnknownDate".data true =
      some ⟨"鈴木".data, "UnknownDate".data, none, "滝_1".data, "A".data,
        some "WAV0018_001".data⟩ ∧
    occursIn "滝".data "滝_1".data = true ∧
    guess_spot_title "滝_1".data = some "水郷の滝".data := by decide

/-! ## Grammar decomposition lemmas -/

theorem takeWhile_dropWhile_append (p : Char → Bool) :
    ∀ l1 l2 : List Char, (∀ c ∈ l1, p c = true) →
      (∀ c ∈ l2.head?, p c = false) →
      (l1 ++ l2).takeWhile p = l1 ∧ (l1 ++ l2).dropWhile p = l2 := by
  intro l1
  induction l1 with
  | nil =>
    intro l2 _ h2
    cases l2 with
    | nil => simp
    | cons c r =>
      have hc : p c = false := h2 c (by simp)
      simp [List.takeWhile_cons, List.dropWhile_cons, hc]
  | cons a as ih =>
    intro l2 h1 h2
    have ha : p a = true := h1 a (List.mem_cons_self _ _)
    have := ih l2 (fun c hc => h1 c (List.mem_cons_of_mem a hc)) h2
    simp [List.takeWhile_cons, List.dropWhile_cons, ha, this.1, this.2]

/-- C7: every stem of Grammar B's shape — a nonempty `[^0-9_]` speaker
run, 8 digits, an underscore, 6 digits, and an arbitrary remainder —
parses to a record whose `date` and `time` are exactly the matched
digit groups, with `time` present and `keep_id` absent, independent of
the remainder. -/
theorem c7_grammar_b_extraction (sp d8 t6 rest : List Char)
    (hsp : sp ≠ []) (hclass : ∀ c ∈ sp, classB c = true)
    (hd8 : d8.length = 8) (hd8d : ∀ c ∈ d8, c.isDigit = true)
    (ht6 : t6.length = 6) (ht6d : ∀ c ∈ t6, c.isDigit = true) :
    parseTsukamoto (sp ++ (d8 ++ '_' :: (t6 ++ rest))) =
      some ⟨sp, d8, some t6, mkDescB rest, "B".data, none⟩ := by
  have hl2 : ∀ c ∈ (d8 ++ '_' :: (t6 ++ rest)).head?, classB c = false := by
    cases d8 with
    | nil => simp at hd8
    | cons c0 cs =>
      intro c hc
      simp only [List.cons_append, List.head?_cons, Option.mem_def,
        Option.some.injEq] at hc
      have hdig : c0.isDigit = true := hd8d c0 (List.mem_cons_self _ _)
      rw [← hc]
      simp [classB, hdig]
  obtain ⟨htw, hdw⟩ := takeWhile_dropWhile_append classB sp _ hclass hl2
  have htake : (d8 ++ '_' :: (t6 ++ rest)).take 8 = d8 := List.take_left' hd8
  have hdrop : (d8 ++ '_' :: (t6 ++ rest)).drop 8 = '_' :: (t6 ++ rest) :=
    List.drop_left' hd8
  have htake6 : (t6 ++ rest).take 6 = t6 := List.take_left' ht6
  have hdrop6 : (t6 ++ rest).drop 6 = rest := List.drop_left' ht6
  simp only [parseTsukamoto, htw, hdw, htake, hdrop, htake6, hdrop6]
  have hne : sp.isEmpty = false := by
    cases sp with
    | nil => exact absurd rfl hsp
    | cons a as => rfl
  rw [hne]
  simp only [Bool.false_eq_true, if_false, hd8, ht6]
  have hall8 : d8.all Char.isDigit = true := List.all_eq_true.mpr hd8d
  have hall6 : t6.all Char.isDigit = true := List.all_eq_true.mpr ht6d
  simp [hall8, hall6]

/-- Witness for C7 at `塚本20251012_121402公園内散策_野球`. -/
theorem c7_grammar_b_extraction_witness :
    parseTsukamoto ("塚本".data ++ ("20251012".data ++ '_' ::
        ("121402".data ++ "公園内散策_野球".data))) =
      some ⟨"塚本".data, "20251012".data, some "121402".data,
        mkDescB "公園内散策_野球".data, "B".data, none⟩ :=
  c7_grammar_b_extraction "塚本".data "20251012".data "121402".data
    "公園内散策_野球".data (by decide) (by decide) (by decide) (by decide)
    (by decide) (by decide)

/-- C8: every stem of Grammar A's shape — a nonempty underscore-free
speaker run, the literal `_WAV_`, 4 digits, an underscore, 3 digits, and
an arbitrary remainder — parses with `keep_id` equal to `"WAV"` + the
4-digit id zero-padded to 4 + `"_"` + the 3-digit id zero-padded to 3
when identifier retention is enabled, and with `keep_id` absent when it
is disabled. -/
theorem c8_grammar_a_keep_id (sp id1 id2 rest unknown_date : List Char) (keep : Bool)
    (hsp : sp ≠ []) (hspu : ∀ c ∈ sp, (c != '_') = true)
    (h1 : id1.length = 4) (h1d : ∀ c ∈ id1, c.isDigit = true)
    (h2 : id2.length = 3) (h2d : ∀ c ∈ id2, c.isDigit = true) :
    parseSuzuki (sp ++ '_' :: 'W' :: 'A' :: 'V' :: '_' :: (id1 ++ '_' :: (id2 ++ rest)))
        unknown_date keep =
      some ⟨sp, unknown_date, none, mkDescA rest, "A".data,
        if keep then some ("WAV".data ++ zfill 4 id1 ++ '_' :: zfill 3 id2)
        else none⟩ := by
  have hl2 : ∀ c ∈ ('_' :: 'W' :: 'A' :: 'V' :: '_' ::
      (id1 ++ '_' :: (id2 ++ rest)) : List Char).head?, (c != '_') = false := by
    intro c hc
    simp only [List.head?_cons, Option.mem_def, Option.some.injEq] at hc
    subst hc
    rfl
  obtain ⟨htw, hdw⟩ := takeWhile_dropWhile_append (· != '_') sp _ hspu hl2
  have htake : (id1 ++ '_' :: (id2 ++ rest)).take 4 = id1 := List.take_left' h1
  have hdrop : (id1 ++ '_' :: (id2 ++ rest)).drop 4 = '_' :: (id2 ++ rest) :=
    List.drop_left' h1
  have htake3 : (id2 ++ rest).take 3 = id2 := List.take_left' h2
  have hdrop3 : (id2 ++ rest).drop 3 = rest := List.drop_left' h2
  simp only [parseSuzuki, htw, hdw, htake, hdrop, htake3, hdrop3]
  have hne : sp.isEmpty = false := by
    cases sp with
    | nil => exact absurd rfl hsp
    | cons a as => rfl
  rw [hne]
  simp only [Bool.false_eq_true, if_false, h1, h2]
  have hall4 : id1.all Char.isDigit = true := List.all_eq_true.mpr h1d
  have hall3 : id2.all Char.isDigit = true := List.all_eq_true.mpr h2d
  simp [hall4, hall3]

/-- Witness for C8 at `鈴木_WAV_0018_001._滝_1`, both retention settings. -/
theorem c8_grammar_a_keep_id_witness :
    parseSuzuki ("鈴木".data ++ '_' :: 'W' :: 'A' :: 'V' :: '_' ::
        ("0018".data ++ '_' :: ("001".data ++ "._滝_1".data)))
        "UnknownDate".data true =
      some ⟨"鈴木".data, "UnknownDate".data, none, mkDescA "._滝_1".data, "A".data,
        some ("WAV".data ++ zfill 4 "0018".data ++ '_' :: zfill 3 "001".data)⟩ ∧
    parseSuzuki ("鈴木".data ++ '_' :: 'W' :: 'A' :: 'V' :: '_' ::
        ("0018".data ++ '_' :: ("001".data ++ "._滝_1".data)))
        "UnknownDate".data false =
      some ⟨"鈴木".data, "UnknownDate".data, none, mkDescA "._滝_1".data, "A".data,
        none⟩ := by
  constructor
  · exact c8_grammar_a_keep_id "鈴木".data "0018".data "001".data "._滝_1".data
      "UnknownDate".data true (by decide) (by decide) (by decide) (by decide)
      (by decide) (by decide)
  · exact c8_grammar_a_keep_id "鈴木".data "0018".data "001".data "._滝_1".data
      "UnknownDate".data false (by decide) (by decide) (by decide) (by decide)
      (by decide) (by decide)

/-! ## Assignment-planner lemmas -/

theorem mem_appendAdd {adds : List (List Char × List Track)} {t : List Char}
    {tr : Track} {title : List Char} {trs : List Track}
    (h : (title, trs) ∈ appendAdd adds t tr) :
    (title, trs) ∈ adds ∨ (title = t ∧ ∃ v, (title, v) ∈ adds ∧ trs = v ++ [tr]) := by
  unfold appendAdd at h
  rcases List.mem_map.mp h with ⟨q, hq, hfq⟩
  cases hb : (q.1 == t) with
  | false =>
    simp only [hb, Bool.false_eq_true, if_false] at hfq
    exact Or.inl (hfq ▸ hq)
  | true =>
    simp only [hb, if_true] at hfq
    have h1 : q.1 = title := congrArg Prod.fst hfq
    have h2 : q.2 ++ [tr] = trs := congrArg Prod.snd hfq
    have ht : title = t := h1 ▸ (beq_iff_eq.mp hb)
    refine Or.inr ⟨ht, q.2, ?_, h2.symm⟩
    have : (q.1, q.2) = q := rfl
    rw [← h1]
    rw [this]
    exact hq

/-- Branch analysis of one `plan_spots_additions_from_rename_plan`
iteration: the additions dict is unchanged, or one track — whose fields
come from the *source*-name parse and the *destination* name — is
appended under the classified title, guarded against playlist
duplicates. -/
theorem assignStepPlan_fst (spots : List Spot) (targets : List (List Char))
    (ud : List Char) (keep rom : Bool)
    (st : List (List Char × List Track) × List Pth) (it : RenamePlanItem) :
    (assignStepPlan spots targets ud keep rom st it).1 = st.1 ∨
    ∃ p title spot, parse_audio_name it.src.name ud keep = some p ∧
      p.speaker ∈ targets ∧ guess_spot_title p.descriptor = some title ∧
      titleToSpot spots title = some spot ∧
      spot.playlist.any (fun t => t.file == "audio/".data ++ it.dst.name) = false ∧
      (assignStepPlan spots targets ud keep rom st it).1 =
        appendAdd st.1 title ⟨build_track_name p.speaker p.descriptor rom,
          "audio/".data ++ it.dst.name⟩ := by
  rcases hp : parse_audio_name it.src.name ud keep with _ | p
  · refine Or.inl ?_
    simp only [assignStepPlan, hp]
  · by_cases hmem : p.speaker ∈ targets
    · rcases hg : guess_spot_title p.descriptor with _ | title
      · refine Or.inl ?_
        simp only [assignStepPlan, hp, hg, if_pos hmem]
      · cases hemp : title.isEmpty with
        | true =>
          refine Or.inl ?_
          simp only [assignStepPlan, hp, hg, if_pos hmem, hemp, if_true]
        | false =>
          rcases hs : titleToSpot spots title with _ | spot
          · refine Or.inl ?_
            simp only [assignStepPlan, hp, hg, if_pos hmem, hemp, hs,
              Bool.false_eq_true, if_false]
          · cases ha : spot.playlist.any
                (fun t => t.file == "audio/".data ++ it.dst.name) with
            | true =>
              refine Or.inl ?_
              simp only [assignStepPlan, hp, hg, if_pos hmem, hemp, hs, ha,
                Bool.false_eq_true, if_false, if_true]
            | false =>
              refine Or.inr ⟨p, title, spot, rfl, hmem, hg, hs, ha, ?_⟩
              simp only [assignStepPlan, hp, hg, if_pos hmem, hemp, hs, ha,
                Bool.false_eq_true, if_false]
    · refine Or.inl ?_
      simp only [assignStepPlan, hp, if_neg hmem]

/-- Every track accumulated by the rename-plan assignment fold either was
already present or originates from some processed plan item: parsed from
its source name, classified from that parse's descriptor, and filed
under its destination name. -/
theorem foldPlan_track_origin (spots : List Spot) (targets : List (List Char))
    (ud : List Char) (keep rom : Bool) :
    ∀ (items : List RenamePlanItem) (st : List (List Char × List Track) × List Pth)
      (title : List Char) (tracks : List Track) (track : Track),
      (title, tracks) ∈ (items.foldl (assignStepPlan spots targets ud keep rom) st).1 →
      track ∈ tracks →
      (∃ trs0, (title, trs0) ∈ st.1 ∧ track ∈ trs0) ∨
        ∃ it, it ∈ items ∧ ∃ p, parse_audio_name it.src.name ud keep = some p ∧
          p.speaker ∈ targets ∧ guess_spot_title p.descriptor = some title ∧
          track.file = "audio/".data ++ it.dst.name ∧
          track.name = build_track_name p.speaker p.descriptor rom := by
  intro items
  induction items with
  | nil =>
    intro st title tracks track h ht
    exact Or.inl ⟨tracks, h, ht⟩
  | cons it rest ih =>
    intro st title tracks track h ht
    simp only [List.foldl_cons] at h
    rcases ih _ title tracks track h ht with ⟨trs0, h0, ht0⟩ | ⟨it', hit', rest'⟩
    · rcases assignStepPlan_fst spots targets ud keep rom st it with
        heq | ⟨p, t', spot, hp, hmem, hg, hs, hany, heq⟩
      · rw [heq] at h0
        exact Or.inl ⟨trs0, h0, ht0⟩
      · rw [heq] at h0
        rcases mem_appendAdd h0 with h0' | ⟨hteq, v, hv, htrs⟩
        · exact Or.inl ⟨trs0, h0', ht0⟩
        · rw [htrs] at ht0
          rcases List.mem_append.mp ht0 with hin | hin
          · exact Or.inl ⟨v, hv, hin⟩
          · have htr : track = ⟨build_track_name p.speaker p.descriptor rom,
                "audio/".data ++ it.dst.name⟩ := List.mem_singleton.mp hin
            refine Or.inr ⟨it, List.mem_cons_self _ _, p, hp, hmem, ?_, ?_, ?_⟩
            · rw [hteq]; exact hg
            · rw [htr]
            · rw [htr]
    · exact Or.inr ⟨it', List.mem_cons_of_mem it hit', rest'⟩

/-- C1 counterexample: for the plan item renaming
`鈴木_WAV_0018_001._滝_1.mp3` to `鈴木_UnknownDate_WAV0018_001_滝_1.mp3`,
the source-based Assignment Planner produces an addition (classifying
the *source* name's descriptor), while the spec-following variant that
derives classification from the *destination* name produces none — the
destination name does not even parse. -/
theorem c1_counterexample :
    (plan_spots_additions_from_rename_plan [⟨"水郷の滝".data, []⟩]
        [⟨⟨"audio".data, "鈴木_WAV_0018_001._滝_1.mp3".data⟩,
          ⟨"audio".data, "鈴木_UnknownDate_WAV0018_001_滝_1.mp3".data⟩⟩]
        "UnknownDate".data true false ["鈴木".data]).1 =
      [("水郷の滝".data,
        [⟨"鈴木:滝_1".data, "audio/鈴木_UnknownDate_WAV0018_001_滝_1.mp3".data⟩])] ∧
    (plan_from_rename_plan_specRead [⟨"水郷の滝".data, []⟩]
        [⟨⟨"audio".data, "鈴木_WAV_0018_001._滝_1.mp3".data⟩,
          ⟨"audio".data, "鈴木_UnknownDate_WAV0018_001_滝_1.mp3".data⟩⟩]
        "UnknownDate".data true false ["鈴木".data]).1 = [] ∧
    parse_audio_name "鈴木_UnknownDate_WAV0018_001_滝_1.mp3".data
      "UnknownDate".data true = none := by decide

/-- C1 (amended): every addition produced from a rename plan takes its
playlist `file` path from the item's post-rename destination name, while
the descriptor used for classification (and the track name) come from
parsing the item's original source name. -/
theorem c1_additions_provenance (spots : List Spot) (plan : List RenamePlanItem)
    (ud : List Char) (keep rom : Bool) (targets : List (List Char))
    (title : List Char) (tracks : List Track) (track : Track)
    (hmem : (title, tracks) ∈
      (plan_spots_additions_from_rename_plan spots plan ud keep rom targets).1)
    (htr : track ∈ tracks) :
    ∃ it, it ∈ plan ∧ ∃ p, parse_audio_name it.src.name ud keep = some p ∧
      p.speaker ∈ targets ∧ guess_spot_title p.descriptor = some title ∧
      track.file = "audio/".data ++ it.dst.name ∧
      track.name = build_track_name p.speaker p.descriptor rom := by
  unfold plan_spots_additions_from_rename_plan at hmem
  have hmem' := List.mem_of_mem_filter hmem
  rcases foldPlan_track_origin spots targets ud keep rom plan
      (emptyAdditions spots, []) title tracks track hmem' htr with
    ⟨trs0, h0, ht0⟩ | h
  · exfalso
    unfold emptyAdditions at h0
    rcases List.mem_map.mp h0 with ⟨t0, -, hfq⟩
    have : trs0 = [] := (congrArg Prod.snd hfq).symm
    rw [this] at ht0
    exact absurd ht0 (List.not_mem_nil track)
  · exact h

/-- Witness for C1's amended theorem at the concrete plan of
`c1_counterexample`. -/
theorem c1_additions_provenance_witness :
    ∃ it, it ∈ [(⟨⟨"audio".data, "鈴木_WAV_0018_001._滝_1.mp3".data⟩,
        ⟨"audio".data, "鈴木_UnknownDate_WAV0018_001_滝_1.mp3".data⟩⟩ : RenamePlanItem)] ∧
      ∃ p, parse_audio_name it.src.name "UnknownDate".data true = some p ∧
        p.speaker ∈ ["鈴木".data] ∧
        guess_spot_title p.descriptor = some "水郷の滝".data ∧
        (⟨"鈴木:滝_1".data,
          "audio/鈴木_UnknownDate_WAV0018_001_滝_1.mp3".data⟩ : Track).file =
          "audio/".data ++ it.dst.name ∧
        (⟨"鈴木:滝_1".data,
          "audio/鈴木_UnknownDate_WAV0018_001_滝_1.mp3".data⟩ : Track).name =
          build_track_name p.speaker p.descriptor false :=
  c1_additions_provenance [⟨"水郷の滝".data, []⟩]
    [⟨⟨"audio".data, "鈴木_WAV_0018_001._滝_1.mp3".data⟩,
      ⟨"audio".data, "鈴木_UnknownDate_WAV0018_001_滝_1.mp3".data⟩⟩]
    "UnknownDate".data true false ["鈴木".data] "水郷の滝".data
    [⟨"鈴木:滝_1".data, "audio/鈴木_UnknownDate_WAV0018_001_滝_1.mp3".data⟩]
    ⟨"鈴木:滝_1".data, "audio/鈴木_UnknownDate_WAV0018_001_滝_1.mp3".data⟩
    (by decide) (by decide)

theorem not_mem_map_file_of_any_eq_false {pl : List Track} {rel : List Char}
    (h : pl.any (fun t => t.file == rel) = false) :
    rel ∉ pl.map Track.file := by
  intro hmem
  rcases List.mem_map.mp hmem with ⟨t, ht, hfe⟩
  rw [List.any_eq_false] at h
  exact h t ht (beq_iff_eq.mpr hfe)

/-- Branch analysis of one `plan_spots_additions` iteration: the
additions dict is unchanged, or one track is appended under the
classified title, guarded against playlist duplicates. -/
theorem assignStep_fst (spots : List Spot) (targets : List (List Char))
    (ud : List Char) (keep rom : Bool)
    (st : List (List Char × List Track) × List (List Char)) (f : List Char) :
    (assignStep spots targets ud keep rom st f).1 = st.1 ∨
    ∃ p title spot, parse_audio_name f ud keep = some p ∧
      guess_spot_title p.descriptor = some title ∧
      titleToSpot spots title = some spot ∧
      spot.playlist.any (fun t => t.file == "audio/".data ++ f) = false ∧
      (assignStep spots targets ud keep rom st f).1 =
        appendAdd st.1 title ⟨build_track_name p.speaker p.descriptor rom,
          "audio/".data ++ f⟩ := by
  cases hsuf : (pyLower (splitExt f).2 != ".mp3".data) with
  | true =>
    refine Or.inl ?_
    simp only [assignStep, hsuf, if_true]
  | false =>
    cases hpre : ((pyNFC (splitExt f).1).takeWhile classB).isEmpty with
    | true =>
      refine Or.inl ?_
      simp only [assignStep, hsuf, hpre, Bool.false_eq_true, if_false, if_true]
    | false =>
      by_cases hmem : ((pyNFC (splitExt f).1).takeWhile classB) ∈ targets
      · rcases hp : parse_audio_name f ud keep with _ | p
        · refine Or.inl ?_
          simp only [assignStep, hsuf, hpre, Bool.false_eq_true, if_false,
            if_pos hmem, hp]
        · rcases hg : guess_spot_title p.descriptor with _ | title
          · refine Or.inl ?_
            simp only [assignStep, hsuf, hpre, Bool.false_eq_true, if_false,
              if_pos hmem, hp, hg]
          · cases hemp : title.isEmpty with
            | true =>
              refine Or.inl ?_
              simp only [assignStep, hsuf, hpre, Bool.false_eq_true, if_false,
                if_pos hmem, hp, hg, hemp, if_true]
            | false =>
              rcases hs : titleToSpot spots title with _ | spot
              · refine Or.inl ?_
                simp only [assignStep, hsuf, hpre, Bool.false_eq_true, if_false,
                  if_pos hmem, hp, hg, hemp, hs]
              · cases ha : spot.playlist.any
                    (fun t => t.file == "audio/".data ++ f) with
                | true =>
                  refine Or.inl ?_
                  simp only [assignStep, hsuf, hpre, Bool.false_eq_true, if_false,
                    if_pos hmem, hp, hg, hemp, hs, ha, if_true]
                | false =>
                  refine Or.inr ⟨p, title, spot, rfl, hg, hs, ha, ?_⟩
                  simp only [assignStep, hsuf, hpre, Bool.false_eq_true, if_false,
                    if_pos hmem, hp, hg, hemp, hs, ha]
      · refine Or.inl ?_
        simp only [assignStep, hsuf, hpre, Bool.false_eq_true, if_false,
          if_neg hmem]

/-- The duplicate-guard invariant is preserved along the
`plan_spots_additions` fold: no accumulated track carries a `file` path
already present in the playlist of the spot its title refers to. -/
theorem foldAssign_no_dup (spots : List Spot) (targets : List (List Char))
    (ud : List Char) (keep rom : Bool) :
    ∀ (files : List (List Char)) (st : List (List Char × List Track) × List (List Char)),
      (∀ title tracks track spot, (title, tracks) ∈ st.1 → track ∈ tracks →
        titleToSpot spots title = some spot →
        track.file ∉ spot.playlist.map Track.file) →
      ∀ title tracks track spot,
        (title, tracks) ∈ (files.foldl (assignStep spots targets ud keep rom) st).1 →
        track ∈ tracks → titleToSpot spots title = some spot →
        track.file ∉ spot.playlist.map Track.file := by
  intro files
  induction files with
  | nil =>
    intro st hinv title tracks track spot h ht hs
    exact hinv title tracks track spot h ht hs
  | cons f rest ih =>
    intro st hinv
    simp only [List.foldl_cons]
    refine ih _ ?_
    intro title tracks track spot h ht hs
    rcases assignStep_fst spots targets ud keep rom st f with
      heq | ⟨p, t', spot', hp, hg, hs', ha, heq⟩
    · rw [heq] at h
      exact hinv title tracks track spot h ht hs
    · rw [heq] at h
      rcases mem_appendAdd h with h' | ⟨hteq, v, hv, htrs⟩
      · exact hinv title tracks track spot h' ht hs
      · rw [htrs] at ht
        rcases List.mem_append.mp ht with hin | hin
        · exact hinv title v track spot hv hin hs
        · have htr : track = ⟨build_track_name p.speaker p.descriptor rom,
              "audio/".data ++ f⟩ := List.mem_singleton.mp hin
          rw [hteq] at hs
          have hspot : spot = spot' := by
            rw [hs] at hs'
            exact Option.some.injEq _ _ ▸ hs'
          rw [htr, hspot]
          exact not_mem_map_file_of_any_eq_false ha

/-- The Assignment Planner never emits an addition whose `file` path is
already present in the playlist of the location its title refers to. -/
theorem plan_spots_additions_no_dup (spots : List Spot) (files : List (List Char))
    (ud : List Char) (keep rom : Bool) (targets : List (List Char)) :
    ∀ title tracks track spot,
      (title, tracks) ∈ (plan_spots_additions spots files ud keep rom targets).1 →
      track ∈ tracks → titleToSpot spots title = some spot →
      track.file ∉ spot.playlist.map Track.file := by
  intro title tracks track spot h ht hs
  unfold plan_spots_additions at h
  have h' := List.mem_of_mem_filter h
  refine foldAssign_no_dup spots targets ud keep rom files
    (emptyAdditions spots, []) ?_ title tracks track spot h' ht hs
  intro title0 tracks0 track0 spot0 h0 ht0 _
  exfalso
  unfold emptyAdditions at h0
  rcases List.mem_map.mp h0 with ⟨t0, -, hfq⟩
  have : tracks0 = [] := (congrArg Prod.snd hfq).symm
  rw [this] at ht0
  exact absurd ht0 (List.not_mem_nil track0)

/-- C4: the Assignment Planner's duplicate guard.  First conjunct: for
*any* location records (in particular those produced by merging a
previous run's additions), no emitted addition carries a `file` value
already present in its location's playlist.  Second conjunct: the
claim's second-run scenario — planning again after the first run's
additions have been merged never proposes a `file` already in the
merged playlist, so no duplicate `file` entry is ever appended. -/
theorem c4_assignment_idempotent (spots : List Spot) (files : List (List Char))
    (ud : List Char) (keep rom : Bool) (targets : List (List Char)) :
    (∀ title tracks track spot,
      (title, tracks) ∈ (plan_spots_additions spots files ud keep rom targets).1 →
      track ∈ tracks → titleToSpot spots title = some spot →
      track.file ∉ spot.playlist.map Track.file) ∧
    (∀ title tracks track spot,
      (title, tracks) ∈ (plan_spots_additions
        (apply_spots_additions spots
          (plan_spots_additions spots files ud keep rom targets).1)
        files ud keep rom targets).1 →
      track ∈ tracks →
      titleToSpot (apply_spots_additions spots
        (plan_spots_additions spots files ud keep rom targets).1) title = some spot →
      track.file ∉ spot.playlist.map Track.file) :=
  ⟨plan_spots_additions_no_dup spots files ud keep rom targets,
   plan_spots_additions_no_dup _ files ud keep rom targets⟩

/-- Witness for C4: with a playlist already holding `audio/old.mp3`, the
planned addition for `鈴木_WAV_0018_001._滝_1.mp3` has a `file` not in
that playlist. -/
theorem c4_assignment_idempotent_witness :
    (⟨"鈴木:滝_1".data, "audio/鈴木_WAV_0018_001._滝_1.mp3".data⟩ : Track).file ∉
      ([⟨"old".data, "audio/old.mp3".data⟩] : List Track).map Track.file :=
  (c4_assignment_idempotent
      [⟨"水郷の滝".data, [⟨"old".data, "audio/old.mp3".data⟩]⟩]
      ["鈴木_WAV_0018_001._滝_1.mp3".data] "UnknownDate".data true false
      ["鈴木".data]).1
    "水郷の滝".data
    [⟨"鈴木:滝_1".data, "audio/鈴木_WAV_0018_001._滝_1.mp3".data⟩]
    ⟨"鈴木:滝_1".data, "audio/鈴木_WAV_0018_001._滝_1.mp3".data⟩
    ⟨"水郷の滝".data, [⟨"old".data, "audio/old.mp3".data⟩]⟩
    (by decide) (by decide) (by decide)

/-- C2 (code evaluated at the failing input): with configuration
`targets = {鈴木}`, `romanize = off`, `unknown_date = "WAV_0018_001"`,
`keep_suzuki_id = off`, the file `鈴木_WAV_0018_001_UnknownContent.mp3`
rebuilds to exactly its own name (first conjunct), yet the final plan
does not drop it: because the collision loop counts the file's own
on-disk source as an existing destination, the plan renames it to
`鈴木_WAV_0018_001_UnknownContent_dup1.mp3` (second conjunct), and the
dead no-op filter never fires. -/
theorem c2_noop_candidate_kept_with_dup_suffix :
    (parse_audio_name "鈴木_WAV_0018_001_UnknownContent.mp3".data
        "WAV_0018_001".data false).map (fun p => build_new_filename p false) =
      some "鈴木_WAV_0018_001_UnknownContent.mp3".data ∧
    plan_renames "audio".data ["鈴木_WAV_0018_001_UnknownContent.mp3".data]
        ["鈴木".data] false "WAV_0018_001".data false =
      [⟨⟨"audio".data, "鈴木_WAV_0018_001_UnknownContent.mp3".data⟩,
        ⟨"audio".data, "鈴木_WAV_0018_001_UnknownContent_dup1.mp3".data⟩⟩] := by
  decide

/-! ## Decimal rendering: `Nat.toDigits 10` is injective -/

/-- Reference decimal rendering, most-significant digit first; shown
below to agree with core's fuelled `Nat.toDigits 10`. -/
def decSpec (n : Nat) : List Char :=
  if n < 10 then [Nat.digitChar n]
  else decSpec (n / 10) ++ [Nat.digitChar (n % 10)]
termination_by n
decreasing_by exact Nat.div_lt_self (by omega) (by omega)

theorem digitChar_toNat : ∀ m : Nat, m < 10 → (Nat.digitChar m).toNat = 48 + m := by
  decide

/-- Reading a digit string back as a number, starting from accumulator `a`. -/
def decValFrom (a : Nat) (l : List Char) : Nat :=
  l.foldl (fun acc c => 10 * acc + (c.toNat - 48)) a

theorem decValFrom_decSpec :
    ∀ n a : Nat, decValFrom a (decSpec n) = a * 10 ^ (decSpec n).length + n := by
  intro n
  induction n using Nat.strong_induction_on with
  | _ n ih =>
    intro a
    by_cases h : n < 10
    · rw [decSpec, if_pos h]
      simp only [decValFrom, List.foldl_cons, List.foldl_nil, List.length_cons,
        List.length_nil]
      rw [digitChar_toNat n h]
      simp [pow_one]
      omega
    · rw [decSpec, if_neg h]
      have hdiv : n / 10 < n := Nat.div_lt_self (by omega) (by omega)
      have hmod : 10 * (n / 10) + n % 10 = n := Nat.div_add_mod n 10
      have hmlt : n % 10 < 10 := Nat.mod_lt _ (by omega)
      simp only [decValFrom, List.foldl_append, List.foldl_cons, List.foldl_nil,
        List.length_append, List.length_cons, List.length_nil]
      have ihv := ih (n / 10) hdiv a
      simp only [decValFrom] at ihv
      rw [ihv, digitChar_toNat _ hmlt]
      have hpow : a * 10 ^ ((decSpec (n / 10)).length + (0 + 1)) =
          (a * 10 ^ (decSpec (n / 10)).length) * 10 := by
        rw [Nat.add_comm 0 1, pow_succ, ← mul_assoc]
      rw [hpow]
      generalize (a * 10 ^ (decSpec (n / 10)).length) = Y
      omega

theorem decSpec_injective : Function.Injective decSpec := by
  intro m n h
  have hm := decValFrom_decSpec m 0
  have hn := decValFrom_decSpec n 0
  rw [h] at hm
  rw [hm] at hn
  omega

theorem toDigitsCore_eq_decSpec :
    ∀ (n fuel : Nat) (ds : List Char), n < fuel →
      Nat.toDigitsCore 10 fuel n ds = decSpec n ++ ds := by
  intro n
  induction n using Nat.strong_induction_on with
  | _ n ih =>
    intro fuel ds hlt
    cases fuel with
    | zero => omega
    | succ f =>
      simp only [Nat.toDigitsCore]
      by_cases h0 : n / 10 = 0
      · rw [if_pos h0]
        have hn10 : n < 10 := by
          have := Nat.div_add_mod n 10
          have := Nat.mod_lt n (show 0 < 10 by omega)
          omega
        rw [decSpec, if_pos hn10, Nat.mod_eq_of_lt hn10]
        simp
      · rw [if_neg h0]
        have hge : 10 ≤ n := by
          by_contra hc
          exact h0 (Nat.div_eq_of_lt (by omega))
        have hdiv : n / 10 < n := Nat.div_lt_self (by omega) (by omega)
        have hfuel : n / 10 < f := by omega
        rw [ih (n / 10) hdiv f _ hfuel]
        conv_rhs => rw [decSpec]
        rw [if_neg (by omega : ¬ n < 10)]
        simp

theorem toDigits10_injective : Function.Injective (Nat.toDigits 10) := by
  intro m n h
  unfold Nat.toDigits at h
  rw [toDigitsCore_eq_decSpec m (m + 1) [] (by omega),
    toDigitsCore_eq_decSpec n (n + 1) [] (by omega)] at h
  simp only [List.append_nil] at h
  exact decSpec_injective h

theorem dupName_injective (base suffix : List Char) {i j : Nat}
    (h : dupName base suffix i = dupName base suffix j) : i = j := by
  unfold dupName at h
  have h1 := List.append_cancel_right h
  have h2 := List.append_cancel_left h1
  exact toDigits10_injective h2

/-! ## Collision-resolution loop lemmas -/

/-- Pigeonhole: among the first `blocked.length + 1` dup-suffixed names
some name avoids `blocked`, since the names are pairwise distinct. -/
theorem exists_free_dupName (blocked : List (List Char)) (base suffix : List Char) :
    ∃ k, 1 ≤ k ∧ k ≤ blocked.length + 1 ∧ dupName base suffix k ∉ blocked := by
  by_contra hcon
  push_neg at hcon
  have hsub : ((List.range (blocked.length + 1)).map
      (fun j => dupName base suffix (j + 1))) ⊆ blocked := by
    intro x hx
    rcases List.mem_map.mp hx with ⟨j, hj, rfl⟩
    exact hcon (j + 1) (by omega) (by have := List.mem_range.mp hj; omega)
  have hnodup : ((List.range (blocked.length + 1)).map
      (fun j => dupName base suffix (j + 1))).Nodup := by
    refine List.Nodup.map ?_ (List.nodup_range _)
    intro a b hab
    have := dupName_injective base suffix hab
    omega
  have hle := (List.subperm_of_subset hnodup hsub).length_le
  simp only [List.length_map, List.length_range] at hle
  omega

/-- The fuelled collision loop returns a name outside `blocked` whenever
a free dup name exists within fuel reach (which
`exists_free_dupName` guarantees for the fuel `plan_renames` supplies);
hence the fuelled loop agrees with the source's unbounded `while`. -/
theorem resolveLoop_not_blocked (blocked : List (List Char)) (base suffix : List Char) :
    ∀ (fuel i : Nat) (dst : List Char),
      (dst ∉ blocked ∨ ∃ k, i ≤ k ∧ k < i + fuel ∧ dupName base suffix k ∉ blocked) →
      resolveLoop blocked base suffix fuel i dst ∉ blocked := by
  intro fuel
  induction fuel with
  | zero =>
    intro i dst h
    rcases h with h | ⟨k, hk1, hk2, -⟩
    · exact h
    · omega
  | succ f ih =>
    intro i dst h
    by_cases hdst : dst ∈ blocked
    · have hex : ∃ k, i ≤ k ∧ k < i + (f + 1) ∧ dupName base suffix k ∉ blocked := by
        rcases h with h | hex
        · exact absurd hdst h
        · exact hex
      rcases hex with ⟨k, hk1, hk2, hkfree⟩
      simp only [resolveLoop]
      rw [if_pos hdst]
      apply ih
      rcases Nat.eq_or_lt_of_le hk1 with rfl | hlt
      · exact Or.inl hkfree
      · exact Or.inr ⟨k, by omega, by omega, hkfree⟩
    · simp only [resolveLoop]
      rw [if_neg hdst]
      exact hdst

theorem resolveDst_not_mem (blocked : List (List Char)) (cand : List Char) :
    resolveDst blocked cand ∉ blocked := by
  apply resolveLoop_not_blocked
  rcases exists_free_dupName blocked (splitExt cand).1 (splitExt cand).2 with
    ⟨k, h1, h2, h3⟩
  exact Or.inr ⟨k, h1, by omega, h3⟩

theorem resolveLoop_shape (blocked : List (List Char)) (base suffix : List Char) :
    ∀ (fuel i : Nat) (dst : List Char),
      resolveLoop blocked base suffix fuel i dst = dst ∨
      ∃ k, resolveLoop blocked base suffix fuel i dst = dupName base suffix k := by
  intro fuel
  induction fuel with
  | zero => intro i dst; exact Or.inl rfl
  | succ f ih =>
    intro i dst
    by_cases hdst : dst ∈ blocked
    · simp only [resolveLoop]
      rw [if_pos hdst]
      rcases ih (i + 1) (dupName base suffix i) with h | ⟨k, h⟩
      · exact Or.inr ⟨i, h⟩
      · exact Or.inr ⟨k, h⟩
    · simp only [resolveLoop]
      rw [if_neg hdst]
      exact Or.inl rfl

theorem resolveDst_shape (blocked : List (List Char)) (cand : List Char) :
    resolveDst blocked cand = cand ∨
    ∃ k, resolveDst blocked cand =
      dupName (splitExt cand).1 (splitExt cand).2 k :=
  resolveLoop_shape blocked (splitExt cand).1 (splitExt cand).2 _ 1 cand

/-- Invariant of the collision-resolution pass: every resolved
destination name avoids both the directory listing and the names
claimed earlier in the pass, and the resolved names are pairwise
distinct. -/
theorem resolveAllAux_inv (listing : List (List Char)) :
    ∀ (items : List RenamePlanItem) (used : List (List Char)),
      (∀ o ∈ resolveAllAux listing items used,
        o.dst.name ∉ listing ∧ o.dst.name ∉ used) ∧
      (resolveAllAux listing items used).Pairwise
        (fun a b => a.dst.name ≠ b.dst.name) := by
  intro items
  induction items with
  | nil =>
    intro used
    refine ⟨?_, List.Pairwise.nil⟩
    intro o ho
    exact absurd ho (List.not_mem_nil o)
  | cons it rest ih =>
    intro used
    have hnm : resolveDst (listing ++ used) it.dst.name ∉ listing ++ used :=
      resolveDst_not_mem _ _
    obtain ⟨ihmem, ihpair⟩ := ih (resolveDst (listing ++ used) it.dst.name :: used)
    constructor
    · intro o ho
      simp only [resolveAllAux] at ho
      rcases List.mem_cons.mp ho with rfl | ho'
      · constructor
        · intro hc
          exact hnm (List.mem_append.mpr (Or.inl hc))
        · intro hc
          exact hnm (List.mem_append.mpr (Or.inr hc))
      · obtain ⟨h1, h2⟩ := ihmem o ho'
        exact ⟨h1, fun hc => h2 (List.mem_cons_of_mem _ hc)⟩
    · simp only [resolveAllAux]
      refine List.Pairwise.cons ?_ ihpair
      intro o ho
      obtain ⟨-, h2⟩ := ihmem o ho
      intro hc
      exact h2 (by rw [← hc]; exact List.mem_cons_self _ _)

/-- Every resolved item keeps its candidate's source and destination
directory, and its destination name is the candidate name or a
dup-suffixed variant of it. -/
theorem resolveAllAux_src_shape (listing : List (List Char)) :
    ∀ (items : List RenamePlanItem) (used : List (List Char))
      (o : RenamePlanItem), o ∈ resolveAllAux listing items used →
      ∃ it, it ∈ items ∧ o.src = it.src ∧ o.dst.dir = it.dst.dir ∧
        (o.dst.name = it.dst.name ∨
          ∃ k, o.dst.name =
            dupName (splitExt it.dst.name).1 (splitExt it.dst.name).2 k) := by
  intro items
  induction items with
  | nil =>
    intro used o ho
    exact absurd ho (List.not_mem_nil o)
  | cons it rest ih =>
    intro used o ho
    simp only [resolveAllAux] at ho
    rcases List.mem_cons.mp ho with rfl | ho'
    · refine ⟨it, List.mem_cons_self _ _, rfl, rfl, ?_⟩
      exact resolveDst_shape (listing ++ used) it.dst.name
    · rcases ih _ o ho' with ⟨it', hit', h1, h2, h3⟩
      exact ⟨it', List.mem_cons_of_mem _ hit', h1, h2, h3⟩

/-- C3: the rename plan never collides — no two plan items share a
destination path, and no item's destination equals the path of a file
present in the directory at plan-construction time that is not itself a
plan source (the code in fact avoids *every* listed file). -/
theorem c3_plan_collision_free (audio_dir : List Char)
    (listing targets : List (List Char)) (romanize : Bool) (ud : List Char)
    (keep : Bool) :
    (plan_renames audio_dir listing targets romanize ud keep).Pairwise
      (fun a b => a.dst ≠ b.dst) ∧
    ∀ it ∈ plan_renames audio_dir listing targets romanize ud keep,
      ∀ nm ∈ listing,
        (∀ it2 ∈ plan_renames audio_dir listing targets romanize ud keep,
          it2.src.name ≠ nm) →
        it.dst ≠ (⟨audio_dir, nm⟩ : Pth) := by
  obtain ⟨hmem, hpair⟩ := resolveAllAux_inv listing
    (candidateItems audio_dir listing targets romanize ud keep) []
  constructor
  · have hpair' : (resolveAllAux listing
        (candidateItems audio_dir listing targets romanize ud keep) []).Pairwise
        (fun a b => a.dst ≠ b.dst) := by
      refine hpair.imp ?_
      intro a b hne hc
      exact hne (congrArg Pth.name hc)
    exact hpair'.sublist (List.filter_sublist _)
  · intro it hit nm hnm _
    have hit' := List.mem_of_mem_filter hit
    obtain ⟨h1, -⟩ := hmem it hit'
    intro hc
    rw [hc] at h1
    exact h1 hnm

/-- Witness for C3 at a listing with a genuine destination collision. -/
theorem c3_plan_collision_free_witness :
    (plan_renames "audio".data
      ["鈴木_WAV_0018_001._滝.mp3".data, "鈴木_WAV_0018_001滝.mp3".data]
      ["鈴木".data] false "UnknownDate".data false).Pairwise
      (fun a b => a.dst ≠ b.dst) :=
  (c3_plan_collision_free "audio".data
    ["鈴木_WAV_0018_001._滝.mp3".data, "鈴木_WAV_0018_001滝.mp3".data]
    ["鈴木".data] false "UnknownDate".data false).1

/-! ## Shape of planned names (for C10) -/

theorem ite_append_mp3_shape (X F : List Char) (hF : F ≠ []) :
    ∃ y, y ≠ [] ∧ (if X.isEmpty then F else X) ++ ".mp3".data = y ++ ".mp3".data := by
  by_cases h : X.isEmpty = true
  · exact ⟨F, hF, by rw [if_pos h]⟩
  · refine ⟨X, ?_, by rw [if_neg h]⟩
    intro hc
    rw [hc] at h
    exact h rfl

/-- Every built filename is a nonempty stem followed by `.mp3`. -/
theorem build_new_filename_shape (p : ParsedAudioName) (rom : Bool) :
    ∃ y, y ≠ [] ∧ build_new_filename p rom = y ++ ".mp3".data := by
  unfold build_new_filename
  apply ite_append_mp3_shape
  simp

theorem splitExt_append_mp3 (y : List Char) (hy : y ≠ []) :
    splitExt (y ++ ".mp3".data) = (y, ".mp3".data) := by
  have hylen : 0 < y.length := List.length_pos.mpr hy
  have hrev : (y ++ ".mp3".data).reverse = '3' :: 'p' :: 'm' :: '.' :: y.reverse := by
    rw [List.reverse_append]
    rfl
  have c3 : (('3' : Char) != '.') = true := by decide
  have cp : (('p' : Char) != '.') = true := by decide
  have cm : (('m' : Char) != '.') = true := by decide
  have cd : (('.' : Char) != '.') = false := by decide
  have htw : List.takeWhile (fun c => c != '.')
      ('3' :: 'p' :: 'm' :: '.' :: y.reverse) = ['3', 'p', 'm'] := by
    simp only [List.takeWhile_cons, c3, cp, cm, cd, if_true,
      Bool.false_eq_true, if_false]
  unfold splitExt
  dsimp only
  rw [hrev, htw]
  have hlen : (y ++ ".mp3".data).length = y.length + 4 := by simp
  have hc1 : ((['3', 'p', 'm'] : List Char).length == 0) = false := rfl
  have hc2 : decide ((y ++ ".mp3".data).length ≤
      (['3', 'p', 'm'] : List Char).length + 1) = false := by
    apply decide_eq_false_iff_not.mpr
    simp only [hlen, List.length_cons, List.length_nil]
    omega
  rw [hc1, hc2]
  simp only [Bool.or_self, Bool.false_eq_true, if_false]
  have hdrop : (('3' :: 'p' :: 'm' :: '.' :: y.reverse).drop
      ((['3', 'p', 'm'] : List Char).length + 1)) = y.reverse := rfl
  rw [hdrop, List.reverse_reverse]
  rfl

/-- Every candidate item pairs a listed source with a rebuilt destination
name, both in the audio directory. -/
theorem candidateItems_shape (audio_dir : List Char)
    (listing targets : List (List Char)) (rom : Bool) (ud : List Char)
    (keep : Bool) :
    ∀ ci ∈ candidateItems audio_dir listing targets rom ud keep,
      ci.src.dir = audio_dir ∧ ci.dst.dir = audio_dir ∧
      ∃ p, ci.dst.name = build_new_filename p rom := by
  intro ci hci
  unfold candidateItems at hci
  rcases List.mem_filterMap.mp hci with ⟨nm, hnm, hfm⟩
  dsimp only at hfm
  split at hfm
  · exact Option.noConfusion hfm
  · split at hfm
    · exact Option.noConfusion hfm
    · split at hfm
      · split at hfm
        · exact Option.noConfusion hfm
        · next parsed heq =>
          injection hfm with h
          rw [← h]
          exact ⟨rfl, rfl, parsed, rfl⟩
      · exact Option.noConfusion hfm

/-- C10: every plan item renames within the input directory — the
destination keeps the source's parent directory — and every destination
filename is a nonempty stem followed by the `.mp3` extension. -/
theorem c10_plan_stays_in_directory (audio_dir : List Char)
    (listing targets : List (List Char)) (romanize : Bool) (ud : List Char)
    (keep : Bool) :
    ∀ it ∈ plan_renames audio_dir listing targets romanize ud keep,
      it.dst.dir = it.src.dir ∧ it.src.dir = audio_dir ∧
      ∃ y, y ≠ [] ∧ it.dst.name = y ++ ".mp3".data := by
  intro it hit
  have hit' := List.mem_of_mem_filter hit
  rcases resolveAllAux_src_shape listing _ [] it hit' with ⟨ci, hci, h1, h2, h3⟩
  obtain ⟨hsd, hdd, p, hb⟩ :=
    candidateItems_shape audio_dir listing targets romanize ud keep ci hci
  obtain ⟨y, hy, hby⟩ := build_new_filename_shape p romanize
  have hsrc : it.src.dir = audio_dir := by rw [h1, hsd]
  refine ⟨by rw [h2, hdd, hsrc], hsrc, ?_⟩
  rcases h3 with hname | ⟨k, hname⟩
  · rw [hname, hb, hby]
    exact ⟨y, hy, rfl⟩
  · rw [hname, hb, hby, splitExt_append_mp3 y hy]
    refine ⟨(y ++ "_dup".data) ++ Nat.toDigits 10 k, ?_, ?_⟩
    · intro hc
      rcases List.append_eq_nil.mp hc with ⟨h4, -⟩
      rcases List.append_eq_nil.mp h4 with ⟨-, h5⟩
      exact absurd h5 (by decide)
    · rfl

/-- Witness for C10 at a two-file listing that exercises both the plain
and the dup-suffixed destination shapes. -/
theorem c10_plan_stays_in_directory_witness :
    (⟨⟨"audio".data, "鈴木_WAV_0018_001._滝.mp3".data⟩,
      ⟨"audio".data, "鈴木_UnknownDate_滝.mp3".data⟩⟩ : RenamePlanItem).dst.dir =
      (⟨⟨"audio".data, "鈴木_WAV_0018_001._滝.mp3".data⟩,
        ⟨"audio".data, "鈴木_UnknownDate_滝.mp3".data⟩⟩ : RenamePlanItem).src.dir ∧
    (⟨⟨"audio".data, "鈴木_WAV_0018_001._滝.mp3".data⟩,
      ⟨"audio".data, "鈴木_UnknownDate_滝.mp3".data⟩⟩ : RenamePlanItem).src.dir =
      "audio".data ∧
    ∃ y, y ≠ [] ∧
      (⟨⟨"audio".data, "鈴木_WAV_0018_001._滝.mp3".data⟩,
        ⟨"audio".data, "鈴木_UnknownDate_滝.mp3".data⟩⟩ : RenamePlanItem).dst.name =
        y ++ ".mp3".data :=
  c10_plan_stays_in_directory "audio".data
    ["鈴木_WAV_0018_001._滝.mp3".data, "鈴木_WAV_0018_001滝.mp3".data]
    ["鈴木".data] false "UnknownDate".data false
    ⟨⟨"audio".data, "鈴木_WAV_0018_001._滝.mp3".data⟩,
      ⟨"audio".data, "鈴木_UnknownDate_滝.mp3".data⟩⟩
    (by decide)

end AudioTool
